import Mathlib

set_option maxHeartbeats 1000000

namespace Kelvin

/-- A filesystem path, modelled as its list of components. The Rust code
(src/main.rs) uses std::path::Path, whose equality, strip_prefix and
starts_with operate component-wise. -/
abbrev FsPath := List String

/-- File contents: std::fs::read returns a vector of bytes. -/
abbrev Bytes := List Nat

/-- The characters after the last dot of a list, when a dot is present. -/
def extCore : List Char → Option (List Char)
  | [] => none
  | c :: cs =>
    match extCore cs with
    | some e => some e
    | none => if c = '.' then some cs else none

/-- Rust Path::extension restricted to one file-name component: the part of
the name after the last dot; none when there is no dot, or when the only dot
is the leading character (dotfiles have no extension). -/
def extension (name : String) : Option String :=
  match name.toList with
  | [] => none
  | _ :: cs =>
    match extCore cs with
    | some e => some (String.mk e)
    | none => none

/-- The extension of a path is the extension of its last component
(Rust Path::extension goes through file_name). -/
def pathExtension (p : FsPath) : Option String :=
  match p.reverse with
  | [] => none
  | n :: _ => extension n

/-- The case-sensitive extension allow-list of is_valid_path
(src/main.rs lines 140-142). -/
def validExt (ext : String) : Bool :=
  ext == "toml" || ext == "lock" || ext == "rs" || ext == "md" || ext == "txt"

/-- Rust Option::map_or false validExt, applied to an optional extension. -/
def extOk : Option String → Bool
  | none => false
  | some e => validExt e

/-- What the filesystem metadata reports for a traversed path: a directory,
a regular file, or anything else (sockets, broken links, ...). -/
inductive FileKind
  | dir
  | file
  | other
deriving DecidableEq

/-- A traversed directory entry, carrying the bytes the filesystem holds at
that path at read time (empty for non-files). -/
structure DirEntry where
  path : FsPath
  kind : FileKind
  content : Bytes
deriving DecidableEq

/-- src/main.rs lines 134-143: directories are always valid; a regular file
is valid when its extension is in the allow-list; anything else is not. -/
def is_valid_path (entry : DirEntry) : Bool :=
  match entry.kind with
  | .dir => true
  | .file => extOk (pathExtension entry.path)
  | .other => false

/-- Behaviour of the collaborators of compress_workspace that src/main.rs
delegates to:
 - ignored: the ignore-crate rules (gitignore conventions, hidden entries,
   mount boundaries) for paths below the root;
 - readOk: whether std::fs::read succeeds on a path;
 - pathOk: whether ZipWriter::start_file_from_path accepts a relative path;
 - consume: how many input bytes the single io::Write::write call on the
   ZipWriter reports as consumed for a given entry path and buffer (the
   io::Write contract allows any positive amount up to the buffer length;
   src/main.rs line 209 discards this count). -/
structure Env where
  ignored : FsPath → Bool
  readOk : FsPath → Bool
  pathOk : FsPath → Bool
  consume : FsPath → Bytes → Nat

/-- State of a zip::ZipWriter: the finished entries in order, plus the
started-but-unfinished entry, if any. -/
structure ZipState where
  done : List (FsPath × Bytes)
  cur : Option (FsPath × Bytes)

/-- The entries the archive will contain if the writer is finished now:
finish closes the pending entry with whatever bytes it has received. -/
def zipEntries (z : ZipState) : List (FsPath × Bytes) :=
  z.done ++ z.cur.toList

/-- ZipWriter::start_file_from_path: on success the previous entry is closed
and a new empty entry is started; on failure (path not storable) the writer
is unchanged, since the path conversion precedes any write. -/
def zipStartFile (env : Env) (z : ZipState) (p : FsPath) : Option ZipState :=
  if env.pathOk p then some ⟨zipEntries z, some (p, [])⟩ else none

/-- One io::Write::write call on the ZipWriter: appends to the current entry
the consumed portion of the buffer, as reported by the Write contract. -/
def zipWrite (env : Env) (z : ZipState) (b : Bytes) : ZipState :=
  match z.cur with
  | some (p, acc) => ⟨z.done, some (p, acc ++ b.take (env.consume p b))⟩
  | none => z

/-- std::fs::read: the bytes on disk at the path, or a read error. -/
def fsRead (env : Env) (p : FsPath) (content : Bytes) : Option Bytes :=
  if env.readOk p then some content else none

/-- src/main.rs lines 198-212: start the entry under the relative path, read
the file from disk, write the bytes into the archive with a single write
call. The Bool reports success; on failure the writer keeps whatever state
the partial operation left behind. -/
def write_file_to_zip (env : Env) (z : ZipState) (relative_path : FsPath)
    (entry : DirEntry) : ZipState × Bool :=
  match zipStartFile env z relative_path with
  | none => (z, false)
  | some z1 =>
    match fsRead env entry.path entry.content with
    | none => (z1, false)
    | some bytes => (zipWrite env z1 bytes, true)

/-- Rust Path::strip_prefix, component-wise. -/
def stripRoot : FsPath → FsPath → Option FsPath
  | [], p => some p
  | _ :: _, [] => none
  | b :: bs, x :: xs => if x = b then stripRoot bs xs else none

/-- Accumulated state of the compress_workspace loop: the zip writer, the
warnings issued so far (each naming the offending path when one is known),
and the file counter. -/
structure BuildState where
  zip : ZipState
  warnings : List (Option FsPath)
  count : Nat

/-- One iteration of the loop of src/main.rs lines 156-185: walker errors are
logged and skipped; entries failing is_valid_path, directory entries, the
root itself, entries outside the root, and entries under target are skipped;
the rest are written, counting successes and logging a warning naming the
path on failure. -/
def processEntry (env : Env) (root : FsPath) (s : BuildState)
    (it : Except Unit DirEntry) : BuildState :=
  match it with
  | .error _ => ⟨s.zip, s.warnings ++ [none], s.count⟩
  | .ok e =>
    if is_valid_path e = false then s
    else if e.kind = .dir then s
    else if e.path = root then s
    else
      match stripRoot root e.path with
      | none => s
      | some rel =>
        if rel.head? = some "target" then s
        else
          match write_file_to_zip env s.zip rel e with
          | (z, true) => ⟨z, s.warnings, s.count + 1⟩
          | (z, false) => ⟨z, s.warnings ++ [some e.path], s.count⟩

/-- Result of compress_workspace: the archive (as its logical entries, in
order), the warnings, and the reported file count. -/
structure CompressResult where
  entries : List (FsPath × Bytes)
  warnings : List (Option FsPath)
  count : Nat

/-- The loop of compress_workspace run over a walker stream, followed by
ZipWriter::finish (which closes the pending entry). -/
def compress_stream (env : Env) (root : FsPath)
    (stream : List (Except Unit DirEntry)) : CompressResult :=
  let s := stream.foldl (processEntry env root) ⟨⟨[], none⟩, [], 0⟩
  ⟨zipEntries s.zip, s.warnings, s.count⟩

/-- A directory tree as the walker sees it: named regular files with their
bytes, and named directories with children. -/
inductive FsTree where
  | file (name : String) (content : Bytes)
  | dir (name : String) (children : List FsTree)

def treeName : FsTree → String
  | .file n _ => n
  | .dir n _ => n

/-- The WalkBuilder max_filesize argument, src/main.rs line 152. -/
def maxFilesize : Nat := 1024 * 1024

mutual
/-- Entries the ignore-crate walker yields from one child subtree: ignored
entries are dropped, files above max_filesize are dropped, filter_entry
(is_valid_path) drops non-matching files and prunes non-matching subtrees;
a directory is yielded before its contents. -/
def walkChild (env : Env) (base : FsPath) : FsTree → List DirEntry
  | .file n c =>
    if env.ignored (base ++ [n]) then []
    else if maxFilesize < c.length then []
    else if is_valid_path ⟨base ++ [n], .file, c⟩ then [⟨base ++ [n], .file, c⟩]
    else []
  | .dir n cs =>
    if env.ignored (base ++ [n]) then []
    else if is_valid_path ⟨base ++ [n], .dir, []⟩ then
      ⟨base ++ [n], .dir, []⟩ :: walkForest env (base ++ [n]) cs
    else []

/-- Walker entries of a list of sibling subtrees, in sibling order. -/
def walkForest (env : Env) (base : FsPath) : List FsTree → List DirEntry
  | [] => []
  | t :: ts => walkChild env base t ++ walkForest env base ts
end

/-- The full walker stream: the root directory entry first, then the
recursive traversal of its children. -/
def walkRoot (env : Env) (root : FsPath) (children : List FsTree) : List DirEntry :=
  ⟨root, .dir, []⟩ :: walkForest env root children

/-- compress_workspace from a resolved root directory: feed the walker
stream through the loop. -/
def buildWorkspace (env : Env) (root : FsPath) (children : List FsTree) :
    CompressResult :=
  compress_stream env root ((walkRoot env root children).map Except.ok)

/-- src/main.rs lines 124-132: the cargo workspace root joined with
Cargo.toml. -/
def get_manifest_path (workspace_root : FsPath) : FsPath :=
  workspace_root ++ ["Cargo.toml"]

/-- Rust Path::parent: none for an empty path, otherwise the path without
its last component. -/
def parentPath : FsPath → Option FsPath
  | [] => none
  | p => some p.dropLast

/-- src/main.rs lines 145-196: take the parent of the manifest path (the
expect on line 146 is modelled as the none branch) and build the archive
from the tree below it. -/
def compress_workspace (env : Env) (manifest_path : FsPath)
    (children : List FsTree) : Option CompressResult :=
  match parentPath manifest_path with
  | none => none
  | some root => some (buildWorkspace env root children)

/-- A component a real directory listing can contain: read_dir never yields
the empty, current or parent pseudo-components. -/
def goodName (n : String) : Bool :=
  !(n == "") && !(n == ".") && !(n == "..")

def namesOf (ts : List FsTree) : List String := ts.map treeName

def listNodup : List String → Bool
  | [] => true
  | x :: xs => !(xs.contains x) && listNodup xs

mutual
/-- Well-formedness a real on-disk tree has: component names are real
(goodName) and sibling names are distinct. -/
def wfTree : FsTree → Bool
  | .file n _ => goodName n
  | .dir n cs => goodName n && listNodup (namesOf cs) && wfTrees cs

def wfTrees : List FsTree → Bool
  | [] => true
  | t :: ts => wfTree t && wfTrees ts
end

def wfForest (ts : List FsTree) : Bool :=
  listNodup (namesOf ts) && wfTrees ts

mutual
/-- The bytes of the regular file at a relative path inside one subtree. -/
def findInTree : FsTree → FsPath → Option Bytes
  | .file n c, rel => if rel = [n] then some c else none
  | .dir n cs, rel =>
    match rel with
    | [] => none
    | m :: rest => if n = m then findFile cs rest else none

/-- The bytes of the regular file at a relative path below the root, if a
regular file lives there. -/
def findFile : List FsTree → FsPath → Option Bytes
  | [], _ => none
  | t :: ts, rel =>
    match findInTree t rel with
    | some c => some c
    | none => findFile ts rel
end

/-- Severity levels of the log crate used by src/main.rs. -/
inductive LogLevel
  | error
  | warn
  | info
  | debug
deriving DecidableEq

/-- The fields serde extracts from a successful response body
(src/main.rs lines 52-67: Response { submit: { id, url }, task: { name } }). -/
structure RespData where
  submit_id : Nat
  submit_url : String
  task_name : String
deriving DecidableEq

/-- An HTTP response as the reqwest collaborator delivers it: the status
code, the result of reading the body as text (res.text may fail), and the
result of deserializing the body as a Response (res.json may fail). -/
structure HttpResponse where
  status : Nat
  text : Option String
  json : Option RespData

/-- An outgoing HTTP request as built in src/main.rs lines 90-97: method,
url, headers, and the multipart parts as (name, filename, bytes). -/
structure HttpRequest where
  method : String
  url : String
  headers : List (String × String)
  parts : List (String × String × Bytes)
deriving DecidableEq

/-- Termination of the run: Ok(()) from main, or the anyhow error context
the failing step attaches (a non-zero process exit). -/
inductive Outcome
  | success
  | failure (context : String)
deriving DecidableEq

/-- Collaborator behaviour for one submission run: the transport result
(none is a network failure), whether the browser opener succeeds on a url,
and which log levels the logger configuration enables (env_logger defaults
to Info, so debug is off unless the environment overrides it; the log-crate
macros evaluate their arguments only for enabled levels). -/
structure SubmitEnv where
  response : Option HttpResponse
  openOk : String → Bool
  levelOn : LogLevel → Bool

/-- Everything observable about one run of the submission half of main:
requests sent, log lines emitted, browser-open invocations, and outcome. -/
structure RunOut where
  requests : List HttpRequest
  logs : List (LogLevel × String)
  opens : List String
  outcome : Outcome

/-- The request of src/main.rs lines 90-97: a POST to
kelvin_url/api/submits/assignment_id with a bearer token header and one
multipart part named solution with filename submit.zip holding the archive. -/
def mkSubmitRequest (kelvin_url : String) (assignment_id : Nat) (token : String)
    (archive : Bytes) : HttpRequest :=
  ⟨"POST", kelvin_url ++ "/api/submits/" ++ toString assignment_id,
   [("Authorization", "Bearer " ++ token)],
   [("solution", "submit.zip", archive)]⟩

/-- src/main.rs lines 88-121: send the archive, then handle the response.
A transport failure is fatal. On a non-OK status, an error line is logged
(when error level is enabled) and the body is read and logged only when
debug level is enabled, in which case a body-read failure is fatal. On OK,
the body is deserialized (failure fatal), two info lines are logged, and
unless no_open is set the browser is opened on the submit url (failure
fatal). -/
def runSubmit (env : SubmitEnv) (assignment_id : Nat) (token kelvin_url : String)
    (no_open : Bool) (archive : Bytes) : RunOut :=
  let req := mkSubmitRequest kelvin_url assignment_id token archive
  match env.response with
  | none => ⟨[req], [], [], .failure "sending submit to Kelvin"⟩
  | some res =>
    if res.status ≠ 200 then
      let logs0 :=
        if env.levelOn .error then
          [(LogLevel.error, "The submit was not successful. Status error: "
              ++ toString res.status)]
        else []
      if env.levelOn .debug then
        match res.text with
        | none => ⟨[req], logs0, [], .failure "getting content of HTTP response"⟩
        | some t =>
          ⟨[req], logs0 ++ [(LogLevel.debug, "Response content: " ++ t)], [],
           .success⟩
      else ⟨[req], logs0, [], .success⟩
    else
      match res.json with
      | none => ⟨[req], [], [], .failure "deserializing response"⟩
      | some d =>
        let logs1 :=
          if env.levelOn .info then
            [(LogLevel.info, "Created submit #" ++ toString d.submit_id
                ++ " for task " ++ d.task_name),
             (LogLevel.info, "You can find the submit at " ++ d.submit_url)]
          else []
        if no_open then ⟨[req], logs1, [], .success⟩
        else if env.openOk d.submit_url then ⟨[req], logs1, [d.submit_url], .success⟩
        else ⟨[req], logs1, [d.submit_url], .failure "opening browser"⟩

/-- An environment where every collaborator behaves: nothing ignored, reads
succeed, paths are storable, and the zip write call consumes its whole
buffer. -/
def benignEnv : Env :=
  ⟨fun _ => false, fun _ => true, fun _ => true, fun _ b => b.length⟩


/-- What one loop iteration contributes to the final archive: the derived
per-item observation used to characterize the loop. -/
def entryOf (env : Env) (root : FsPath) : Except Unit DirEntry → Option (FsPath × Bytes)
  | .error _ => none
  | .ok e =>
    if is_valid_path e = false then none
    else if e.kind = .dir then none
    else if e.path = root then none
    else
      match stripRoot root e.path with
      | none => none
      | some rel =>
        if rel.head? = some "target" then none
        else if env.pathOk rel then
          some (rel, if env.readOk e.path then
                       e.content.take (env.consume rel e.content)
                     else [])
        else none

/-- What one loop iteration contributes to the warning log. -/
def warnOf (env : Env) (root : FsPath) : Except Unit DirEntry → Option (Option FsPath)
  | .error _ => some none
  | .ok e =>
    if is_valid_path e = false then none
    else if e.kind = .dir then none
    else if e.path = root then none
    else
      match stripRoot root e.path with
      | none => none
      | some rel =>
        if rel.head? = some "target" then none
        else if env.pathOk rel && env.readOk e.path then none
        else some (some e.path)

theorem processEntry_spec (env : Env) (root : FsPath) (s : BuildState)
    (it : Except Unit DirEntry) :
    zipEntries (processEntry env root s it).zip
      = zipEntries s.zip ++ (entryOf env root it).toList
    ∧ (processEntry env root s it).warnings
      = s.warnings ++ (warnOf env root it).toList := by
  cases it with
  | error e => simp [processEntry, entryOf, warnOf]
  | ok e =>
    by_cases hv : is_valid_path e = false
    · simp [processEntry, entryOf, warnOf, hv]
    · by_cases hd : e.kind = FileKind.dir
      · simp [processEntry, entryOf, warnOf, hv, hd]
      · by_cases hr : e.path = root
        · simp [processEntry, entryOf, warnOf, hv, hd, hr]
        · cases hs : stripRoot root e.path with
          | none => simp [processEntry, entryOf, warnOf, hv, hd, hr, hs]
          | some rel =>
            by_cases ht : rel.head? = some "target"
            · simp [processEntry, entryOf, warnOf, hv, hd, hr, hs, ht]
            · by_cases hp : env.pathOk rel
              · by_cases hk : env.readOk e.path
                · simp [processEntry, entryOf, warnOf, hv, hd, hr, hs, ht, hp, hk,
                        write_file_to_zip, zipStartFile, fsRead, zipWrite, zipEntries]
                · simp [processEntry, entryOf, warnOf, hv, hd, hr, hs, ht, hp, hk,
                        write_file_to_zip, zipStartFile, fsRead, zipWrite, zipEntries]
              · simp [processEntry, entryOf, warnOf, hv, hd, hr, hs, ht, hp,
                      write_file_to_zip, zipStartFile, fsRead, zipWrite, zipEntries]

theorem foldl_processEntry_spec (env : Env) (root : FsPath)
    (stream : List (Except Unit DirEntry)) : ∀ s : BuildState,
    zipEntries (stream.foldl (processEntry env root) s).zip
      = zipEntries s.zip ++ stream.filterMap (entryOf env root)
    ∧ (stream.foldl (processEntry env root) s).warnings
      = s.warnings ++ stream.filterMap (warnOf env root) := by
  induction stream with
  | nil => intro s; simp
  | cons a L ih =>
    intro s
    have h := processEntry_spec env root s a
    have h2 := ih (processEntry env root s a)
    refine ⟨?_, ?_⟩
    · rw [List.foldl_cons, h2.1, h.1, List.filterMap_cons]
      cases entryOf env root a <;> simp
    · rw [List.foldl_cons, h2.2, h.2, List.filterMap_cons]
      cases warnOf env root a <;> simp

theorem compress_stream_entries (env : Env) (root : FsPath)
    (stream : List (Except Unit DirEntry)) :
    (compress_stream env root stream).entries
      = stream.filterMap (entryOf env root) := by
  have h := (foldl_processEntry_spec env root stream ⟨⟨[], none⟩, [], 0⟩).1
  simpa [compress_stream, zipEntries] using h

theorem compress_stream_warnings (env : Env) (root : FsPath)
    (stream : List (Except Unit DirEntry)) :
    (compress_stream env root stream).warnings
      = stream.filterMap (warnOf env root) := by
  have h := (foldl_processEntry_spec env root stream ⟨⟨[], none⟩, [], 0⟩).2
  simpa [compress_stream] using h

theorem buildWorkspace_entries (env : Env) (root : FsPath) (children : List FsTree) :
    (buildWorkspace env root children).entries
      = (walkRoot env root children).filterMap
          (fun e => entryOf env root (Except.ok e)) := by
  rw [buildWorkspace, compress_stream_entries, List.filterMap_map]
  rfl

theorem mem_buildWorkspace_entries {env : Env} {root : FsPath}
    {children : List FsTree} {p : FsPath × Bytes} :
    p ∈ (buildWorkspace env root children).entries
      ↔ ∃ e, e ∈ walkRoot env root children
          ∧ entryOf env root (Except.ok e) = some p := by
  rw [buildWorkspace_entries, List.mem_filterMap]

theorem stripRoot_some : ∀ {base p rel : FsPath},
    stripRoot base p = some rel → p = base ++ rel := by
  intro base
  induction base with
  | nil =>
    intro p rel h
    simp only [stripRoot, Option.some.injEq] at h
    simp [h]
  | cons b bs ih =>
    intro p rel h
    cases p with
    | nil => simp [stripRoot] at h
    | cons x xs =>
      by_cases hxb : x = b
      · simp only [stripRoot, if_pos hxb] at h
        have := ih h
        simp [hxb, this]
      · simp [stripRoot, hxb] at h

theorem stripRoot_append : ∀ (base rel : FsPath),
    stripRoot base (base ++ rel) = some rel := by
  intro base rel
  induction base with
  | nil => rfl
  | cons b bs ih => simp [stripRoot, ih]

theorem pathExtension_append (w r : FsPath) (h : r ≠ []) :
    pathExtension (w ++ r) = pathExtension r := by
  unfold pathExtension
  rw [List.reverse_append]
  cases hr : r.reverse with
  | nil =>
    exact absurd (List.reverse_eq_nil_iff.mp hr) h
  | cons n rest => simp

theorem is_valid_file_inv {e : DirEntry} (hv : is_valid_path e = true)
    (hd : e.kind ≠ FileKind.dir) :
    e.kind = FileKind.file ∧ extOk (pathExtension e.path) = true := by
  cases hk : e.kind with
  | dir => exact absurd hk hd
  | file => simpa [is_valid_path, hk] using hv
  | other => simp [is_valid_path, hk] at hv

theorem entryOf_ok_inv {env : Env} {root : FsPath} {e : DirEntry}
    {r : FsPath} {b : Bytes}
    (h : entryOf env root (Except.ok e) = some (r, b)) :
    e.kind = FileKind.file ∧ extOk (pathExtension e.path) = true
    ∧ e.path = root ++ r ∧ r ≠ [] ∧ r.head? ≠ some "target"
    ∧ env.pathOk r = true
    ∧ b = (if env.readOk e.path then e.content.take (env.consume r e.content)
           else []) := by
  by_cases hv : is_valid_path e = false
  · simp [entryOf, hv] at h
  · by_cases hd : e.kind = FileKind.dir
    · simp [entryOf, hv, hd] at h
    · by_cases hr : e.path = root
      · simp [entryOf, hv, hd, hr] at h
      · cases hs : stripRoot root e.path with
        | none => simp [entryOf, hv, hd, hr, hs] at h
        | some rel =>
          by_cases ht : rel.head? = some "target"
          · simp [entryOf, hv, hd, hr, hs, ht] at h
          · by_cases hp : env.pathOk rel
            · simp [entryOf, hv, hd, hr, hs, ht, hp] at h
              obtain ⟨hrel, hb⟩ := h
              subst hrel
              have hvv : is_valid_path e = true := by
                cases hvb : is_valid_path e
                · exact absurd hvb hv
                · rfl
              obtain ⟨hkind, hext⟩ := is_valid_file_inv hvv hd
              have hpath := stripRoot_some hs
              refine ⟨hkind, hext, hpath, ?_, ht, hp, ?_⟩
              · intro hnil
                subst hnil
                simp at hpath
                exact hr hpath
              · simpa using hb.symm
            · simp [entryOf, hv, hd, hr, hs, ht, hp] at h


theorem listNodup_cons {x : String} {xs : List String}
    (h : listNodup (x :: xs) = true) : x ∉ xs ∧ listNodup xs = true := by
  simp only [listNodup, Bool.and_eq_true, Bool.not_eq_true'] at h
  refine ⟨?_, h.2⟩
  have h1 := h.1
  simp only [List.contains, List.elem_eq_mem, decide_eq_false_iff_not] at h1
  exact h1

mutual
theorem walkChild_file_spec (env : Env) (base : FsPath) :
    ∀ (t : FsTree) (e : DirEntry), e ∈ walkChild env base t →
      e.kind = FileKind.file →
      e.content.length ≤ maxFilesize ∧ extOk (pathExtension e.path) = true
  | .file n c, e, h, _ => by
      by_cases hig : env.ignored (base ++ [n])
      · simp [walkChild, hig] at h
      · by_cases hsz : maxFilesize < c.length
        · simp [walkChild, hig, hsz] at h
        · by_cases hvp : is_valid_path ⟨base ++ [n], .file, c⟩
          · simp [walkChild, hig, hsz, hvp] at h
            subst h
            exact ⟨Nat.le_of_not_lt hsz, by simpa [is_valid_path] using hvp⟩
          · simp [walkChild, hig, hsz, hvp] at h
  | .dir n cs, e, h, hf => by
      by_cases hig : env.ignored (base ++ [n])
      · simp [walkChild, hig] at h
      · simp [walkChild, hig, is_valid_path] at h
        cases h with
        | inl h1 => rw [h1] at hf; simp at hf
        | inr h2 => exact walkForest_file_spec env (base ++ [n]) cs e h2 hf

theorem walkForest_file_spec (env : Env) (base : FsPath) :
    ∀ (ts : List FsTree) (e : DirEntry), e ∈ walkForest env base ts →
      e.kind = FileKind.file →
      e.content.length ≤ maxFilesize ∧ extOk (pathExtension e.path) = true
  | [], e, h, _ => by simp [walkForest] at h
  | t :: ts, e, h, hf => by
      rw [walkForest] at h
      rcases List.mem_append.mp h with h1 | h2
      · exact walkChild_file_spec env base t e h1 hf
      · exact walkForest_file_spec env base ts e h2 hf
end

mutual
theorem walkChild_shape (env : Env) (base : FsPath) :
    ∀ (t : FsTree) (e : DirEntry), e ∈ walkChild env base t →
      ∃ rest, e.path = base ++ treeName t :: rest
  | .file n c, e, h => by
      by_cases hig : env.ignored (base ++ [n])
      · simp [walkChild, hig] at h
      · by_cases hsz : maxFilesize < c.length
        · simp [walkChild, hig, hsz] at h
        · by_cases hvp : is_valid_path ⟨base ++ [n], .file, c⟩
          · simp [walkChild, hig, hsz, hvp] at h
            subst h
            exact ⟨[], by simp [treeName]⟩
          · simp [walkChild, hig, hsz, hvp] at h
  | .dir n cs, e, h => by
      by_cases hig : env.ignored (base ++ [n])
      · simp [walkChild, hig] at h
      · simp [walkChild, hig, is_valid_path] at h
        cases h with
        | inl h1 => exact ⟨[], by simp [h1, treeName]⟩
        | inr h2 =>
          obtain ⟨m, rest, _, hp⟩ := walkForest_shape env (base ++ [n]) cs e h2
          exact ⟨m :: rest, by simp [treeName, hp, List.append_assoc]⟩

theorem walkForest_shape (env : Env) (base : FsPath) :
    ∀ (ts : List FsTree) (e : DirEntry), e ∈ walkForest env base ts →
      ∃ m rest, m ∈ namesOf ts ∧ e.path = base ++ m :: rest
  | [], e, h => by simp [walkForest] at h
  | t :: ts, e, h => by
      rw [walkForest] at h
      rcases List.mem_append.mp h with h1 | h2
      · obtain ⟨rest, hp⟩ := walkChild_shape env base t e h1
        refine ⟨treeName t, rest, ?_, hp⟩
        simp [namesOf]
      · obtain ⟨m, rest, hm, hp⟩ := walkForest_shape env base ts e h2
        refine ⟨m, rest, ?_, hp⟩
        simp only [namesOf, List.map_cons]
        exact List.mem_cons_of_mem _ hm
end

mutual
theorem walkChild_good (env : Env) (base : FsPath) :
    ∀ (t : FsTree) (e : DirEntry), e ∈ walkChild env base t → wfTree t = true →
      ∃ rel, rel ≠ [] ∧ e.path = base ++ rel ∧ ∀ s ∈ rel, goodName s = true
  | .file n c, e, h, hwf => by
      by_cases hig : env.ignored (base ++ [n])
      · simp [walkChild, hig] at h
      · by_cases hsz : maxFilesize < c.length
        · simp [walkChild, hig, hsz] at h
        · by_cases hvp : is_valid_path ⟨base ++ [n], .file, c⟩
          · simp [walkChild, hig, hsz, hvp] at h
            subst h
            refine ⟨[n], by simp, by simp, ?_⟩
            intro s hs
            simp at hs
            subst hs
            simpa [wfTree] using hwf
          · simp [walkChild, hig, hsz, hvp] at h
  | .dir n cs, e, h, hwf => by
      simp only [wfTree, Bool.and_eq_true] at hwf
      obtain ⟨⟨hgn, _⟩, hts⟩ := hwf
      by_cases hig : env.ignored (base ++ [n])
      · simp [walkChild, hig] at h
      · simp [walkChild, hig, is_valid_path] at h
        cases h with
        | inl h1 =>
          refine ⟨[n], by simp, by simp [h1], ?_⟩
          intro s hs
          simp at hs
          subst hs
          exact hgn
        | inr h2 =>
          obtain ⟨rel, hne, hp, hgood⟩ := walkForest_good env (base ++ [n]) cs e h2 hts
          refine ⟨n :: rel, by simp, by simp [hp, List.append_assoc], ?_⟩
          intro s hs
          rcases List.mem_cons.mp hs with h3 | h3
          · subst h3; exact hgn
          · exact hgood s h3

theorem walkForest_good (env : Env) (base : FsPath) :
    ∀ (ts : List FsTree) (e : DirEntry), e ∈ walkForest env base ts →
      wfTrees ts = true →
      ∃ rel, rel ≠ [] ∧ e.path = base ++ rel ∧ ∀ s ∈ rel, goodName s = true
  | [], e, h, _ => by simp [walkForest] at h
  | t :: ts, e, h, hwf => by
      simp only [wfTrees, Bool.and_eq_true] at hwf
      rw [walkForest] at h
      rcases List.mem_append.mp h with h1 | h2
      · exact walkChild_good env base t e h1 hwf.1
      · exact walkForest_good env base ts e h2 hwf.2
end

theorem findInTree_ne_head (t : FsTree) (m : String) (rest : FsPath)
    (h : ¬ treeName t = m) : findInTree t (m :: rest) = none := by
  cases t with
  | file n c =>
    simp only [treeName] at h
    have hne : ¬ (m :: rest = [n]) := by
      intro heq
      injection heq with h1 _
      exact h h1.symm
    simp [findInTree, hne]
  | dir n cs =>
    simp only [treeName] at h
    simp [findInTree, h]

theorem findFile_nil_path : ∀ (ts : List FsTree), findFile ts [] = none
  | [] => by simp [findFile]
  | t :: ts => by
      cases t <;> simp [findFile, findInTree, findFile_nil_path ts]

mutual
theorem findInTree_of_walk (env : Env) (base : FsPath) :
    ∀ (t : FsTree) (e : DirEntry), e ∈ walkChild env base t →
      e.kind = FileKind.file → wfTree t = true →
      ∀ rel : FsPath, e.path = base ++ rel → findInTree t rel = some e.content
  | .file n c, e, h, _, _, rel, hp => by
      by_cases hig : env.ignored (base ++ [n])
      · simp [walkChild, hig] at h
      · by_cases hsz : maxFilesize < c.length
        · simp [walkChild, hig, hsz] at h
        · by_cases hvp : is_valid_path ⟨base ++ [n], .file, c⟩
          · simp [walkChild, hig, hsz, hvp] at h
            subst h
            simp only at hp
            have : rel = [n] := List.append_cancel_left hp.symm
            simp [findInTree, this]
          · simp [walkChild, hig, hsz, hvp] at h
  | .dir n cs, e, h, hf, hwf, rel, hp => by
      simp only [wfTree, Bool.and_eq_true] at hwf
      obtain ⟨⟨_, hnd⟩, hts⟩ := hwf
      by_cases hig : env.ignored (base ++ [n])
      · simp [walkChild, hig] at h
      · simp [walkChild, hig, is_valid_path] at h
        cases h with
        | inl h1 => rw [h1] at hf; simp at hf
        | inr h2 =>
          obtain ⟨m, rest, _, hp2⟩ := walkForest_shape env (base ++ [n]) cs e h2
          have hrel : rel = n :: m :: rest := by
            have hb : base ++ rel = base ++ n :: m :: rest := by
              rw [← hp, hp2]
              simp [List.append_assoc]
            exact List.append_cancel_left hb
          subst hrel
          simp only [findInTree, if_pos rfl]
          exact findFile_of_walk env (base ++ [n]) cs e h2 hf
            (by simp [hnd, hts, wfForest]) (m :: rest) hp2

theorem findFile_of_walk (env : Env) (base : FsPath) :
    ∀ (ts : List FsTree) (e : DirEntry), e ∈ walkForest env base ts →
      e.kind = FileKind.file → wfForest ts = true →
      ∀ rel : FsPath, e.path = base ++ rel → findFile ts rel = some e.content
  | [], e, h, _, _, _, _ => by simp [walkForest] at h
  | t :: ts, e, h, hf, hwf, rel, hp => by
      simp only [wfForest, Bool.and_eq_true] at hwf
      obtain ⟨hnd, hts⟩ := hwf
      simp only [namesOf, List.map_cons] at hnd
      obtain ⟨hcont, hndts⟩ := listNodup_cons hnd
      simp only [wfTrees, Bool.and_eq_true] at hts
      rw [walkForest] at h
      rcases List.mem_append.mp h with h1 | h2
      · have := findInTree_of_walk env base t e h1 hf hts.1 rel hp
        simp [findFile, this]
      · obtain ⟨m, rest, hm, hp2⟩ := walkForest_shape env base ts e h2
        have hrel : rel = m :: rest := by
          have hb : base ++ rel = base ++ m :: rest := by
            rw [← hp, hp2]
          exact List.append_cancel_left hb
        have hne : ¬ treeName t = m := by
          intro heq
          apply hcont
          rw [heq]
          simpa [namesOf] using hm
        subst hrel
        rw [findFile, findInTree_ne_head t m rest hne]
        exact findFile_of_walk env base ts e h2 hf
          (by simp [wfForest, namesOf, hndts, hts.2]) (m :: rest) hp
end


mutual
/-- Two trees describe the same unchanged directory: same names and
contents, with sibling order possibly differing (the order in which two
runs of the walker enumerate an unchanged directory is not specified). -/
inductive TreePerm : FsTree → FsTree → Prop
  | file (n : String) (c : Bytes) : TreePerm (.file n c) (.file n c)
  | dir (n : String) {cs cs' : List FsTree} :
      ForestPerm cs cs' → TreePerm (.dir n cs) (.dir n cs')

/-- Sibling-order permutation of two lists of subtrees. -/
inductive ForestPerm : List FsTree → List FsTree → Prop
  | nil : ForestPerm [] []
  | cons {t t' : FsTree} {ts ts' : List FsTree} :
      TreePerm t t' → ForestPerm ts ts' → ForestPerm (t :: ts) (t' :: ts')
  | swap (a b : FsTree) (ts : List FsTree) :
      ForestPerm (a :: b :: ts) (b :: a :: ts)
  | trans {ts₁ ts₂ ts₃ : List FsTree} :
      ForestPerm ts₁ ts₂ → ForestPerm ts₂ ts₃ → ForestPerm ts₁ ts₃
end

theorem walkChild_perm (env : Env) {t t' : FsTree} (h : TreePerm t t') :
    ∀ base, (walkChild env base t).Perm (walkChild env base t') := by
  refine @TreePerm.rec
      (fun a a' _ => ∀ base, (walkChild env base a).Perm (walkChild env base a'))
      (fun ls ls' _ => ∀ base, (walkForest env base ls).Perm (walkForest env base ls'))
      ?_ ?_ ?_ ?_ ?_ ?_ t t' h
  · intro n c base
    exact List.Perm.refl _
  · intro n cs cs' hcs ih base
    by_cases hig : env.ignored (base ++ [n])
    · simp [walkChild, hig]
    · simp [walkChild, hig, is_valid_path, List.perm_cons]
      exact ih (base ++ [n])
  · intro base
    exact List.Perm.refl _
  · intro t1 t1' ts1 ts1' ht hts iht ihts base
    rw [walkForest, walkForest]
    exact List.Perm.append (iht base) (ihts base)
  · intro a b ts base
    rw [walkForest, walkForest, walkForest, walkForest]
    rw [← List.append_assoc, ← List.append_assoc]
    exact List.Perm.append_right _ List.perm_append_comm
  · intro ts1 ts2 ts3 h1 h2 ih1 ih2 base
    exact (ih1 base).trans (ih2 base)

theorem walkForest_perm (env : Env) {ts ts' : List FsTree} (h : ForestPerm ts ts') :
    ∀ base, (walkForest env base ts).Perm (walkForest env base ts') := by
  refine @ForestPerm.rec
      (fun a a' _ => ∀ base, (walkChild env base a).Perm (walkChild env base a'))
      (fun ls ls' _ => ∀ base, (walkForest env base ls).Perm (walkForest env base ls'))
      ?_ ?_ ?_ ?_ ?_ ?_ ts ts' h
  · intro n c base
    exact List.Perm.refl _
  · intro n cs cs' hcs ih base
    by_cases hig : env.ignored (base ++ [n])
    · simp [walkChild, hig]
    · simp [walkChild, hig, is_valid_path, List.perm_cons]
      exact ih (base ++ [n])
  · intro base
    exact List.Perm.refl _
  · intro t1 t1' ts1 ts1' ht hts iht ihts base
    rw [walkForest, walkForest]
    exact List.Perm.append (iht base) (ihts base)
  · intro a b ts base
    rw [walkForest, walkForest, walkForest, walkForest]
    rw [← List.append_assoc, ← List.append_assoc]
    exact List.Perm.append_right _ List.perm_append_comm
  · intro ts1 ts2 ts3 h1 h2 ih1 ih2 base
    exact (ih1 base).trans (ih2 base)


theorem parentPath_manifest (w : FsPath) : parentPath (get_manifest_path w) = some w := by
  unfold get_manifest_path
  cases hw : w ++ ["Cargo.toml"] with
  | nil => simp at hw
  | cons a l =>
    have hd : (a :: l).dropLast = w := by
      rw [← hw]
      simp
    simp [parentPath, hd]

/-- C10: the manifest path produced by get_manifest_path is a workspace root
joined with Cargo.toml, so Path::parent on it always succeeds (returning the
workspace root) and the expect in compress_workspace (src/main.rs line 146)
never panics: compress_workspace is total on all inputs reachable from main. -/
theorem manifest_path_always_has_parent (env : Env) (w : FsPath)
    (children : List FsTree) :
    parentPath (get_manifest_path w) = some w
    ∧ compress_workspace env (get_manifest_path w) children
        = some (buildWorkspace env w children) := by
  refine ⟨parentPath_manifest w, ?_⟩
  unfold compress_workspace
  rw [parentPath_manifest w]

/-- C7: every run sends exactly one HTTP POST, whose URL is the base url
followed by /api/submits/ and the assignment id, whose Authorization header
is Bearer followed by the token, and whose multipart body is the single part
named solution with filename submit.zip holding the archive bytes
(src/main.rs lines 90-98). -/
theorem single_post_request_shape (env : SubmitEnv) (assignment_id : Nat)
    (token kelvin_url : String) (no_open : Bool) (archive : Bytes) :
    (runSubmit env assignment_id token kelvin_url no_open archive).requests
      = [⟨"POST", kelvin_url ++ "/api/submits/" ++ toString assignment_id,
          [("Authorization", "Bearer " ++ token)],
          [("solution", "submit.zip", archive)]⟩] := by
  unfold runSubmit mkSubmitRequest
  cases env.response with
  | none => rfl
  | some res =>
    by_cases h2 : res.status ≠ 200
    · simp only [if_pos h2]
      by_cases hd : env.levelOn LogLevel.debug
      · cases res.text <;> simp [hd]
      · simp [hd]
    · simp only [if_neg h2]
      cases res.json with
      | none => rfl
      | some d =>
        by_cases hn : no_open
        · simp [hn]
        · by_cases ho : env.openOk d.submit_url <;> simp [hn, ho]

/-- An environment identical to benignEnv except that the single zip write
call reports having consumed only one byte of its buffer, which the
io::Write contract permits. -/
def shortWriteEnv : Env :=
  ⟨fun _ => false, fun _ => true, fun _ => true, fun _ _ => 1⟩

/-- C1 (code bug): src/main.rs line 209 calls write, not write_all, and
discards the returned count. When the write consumes the whole buffer the
stored entry equals the file bytes, but when it reports a shorter count --
which the io::Write contract allows, and which the deflate encoder does for
buffers whose compressed form exceeds its internal output buffer -- the
archive silently stores only a prefix of the file. -/
theorem roundtrip_depends_on_write_count :
    (buildWorkspace benignEnv ["root"] [FsTree.file "a.rs" [7, 8]]).entries
      = [(["a.rs"], [7, 8])]
    ∧ (buildWorkspace shortWriteEnv ["root"] [FsTree.file "a.rs" [7, 8]]).entries
      = [(["a.rs"], [7])]
    ∧ findFile [FsTree.file "a.rs" [7, 8]] ["a.rs"] = some [7, 8] :=
  ⟨rfl, rfl, rfl⟩

/-- An environment where every read fails (e.g. permissions dropped),
everything else behaving. -/
def readFailEnv : Env :=
  ⟨fun _ => false, fun _ => false, fun _ => true, fun _ b => b.length⟩

/-- C2 counterexample: a file that passes all filters but cannot be read is
warned about, yet the produced archive DOES contain an entry under its
relative path: start_file_from_path has already started the entry when the
read fails, so finishing the archive emits it with empty content. -/
theorem read_failure_leaves_empty_entry :
    (buildWorkspace readFailEnv ["root"] [FsTree.file "a.rs" [1]]).warnings
      = [some ["root", "a.rs"]]
    ∧ (buildWorkspace readFailEnv ["root"] [FsTree.file "a.rs" [1]]).entries
      = [(["a.rs"], [])] :=
  ⟨rfl, rfl⟩

/-- C2 (amended): for a traversed regular file that passes the inclusion
filters but whose contents cannot be read, the builder logs a warning naming
the offending path and continues with the remaining entries unaffected; no
entry with the file's bytes is stored, but if the entry had already been
started (the relative path was storable) an empty entry under the file's
relative path remains in the archive. -/
theorem per_entry_failure_warns_and_continues (env : Env) (root : FsPath)
    (pre post : List (Except Unit DirEntry)) (e : DirEntry) (rel : FsPath)
    (hk : e.kind = FileKind.file) (hv : is_valid_path e = true)
    (hroot : e.path ≠ root) (hstrip : stripRoot root e.path = some rel)
    (htgt : rel.head? ≠ some "target") (hread : env.readOk e.path = false) :
    (compress_stream env root (pre ++ Except.ok e :: post)).warnings
      = pre.filterMap (warnOf env root)
          ++ some e.path :: post.filterMap (warnOf env root)
    ∧ (compress_stream env root (pre ++ Except.ok e :: post)).entries
      = pre.filterMap (entryOf env root)
          ++ (if env.pathOk rel then [(rel, [])] else [])
          ++ post.filterMap (entryOf env root) := by
  have hw : warnOf env root (Except.ok e) = some (some e.path) := by
    simp [warnOf, hv, hk, hroot, hstrip, htgt, hread]
  have he : entryOf env root (Except.ok e)
      = if env.pathOk rel then some (rel, []) else none := by
    simp [entryOf, hv, hk, hroot, hstrip, htgt, hread]
  constructor
  · rw [compress_stream_warnings]
    simp only [List.filterMap_append, List.filterMap_cons, hw]
  · rw [compress_stream_entries]
    simp only [List.filterMap_append, List.filterMap_cons, he]
    by_cases hp : env.pathOk rel
    · simp [hp]
    · simp [hp]

/-- Witness for the amended C2 statement on a concrete two-file stream. -/
theorem per_entry_failure_warns_and_continues_witness :
    (compress_stream readFailEnv ["r"]
        ([] ++ Except.ok (⟨["r", "a.rs"], FileKind.file, [5]⟩ : DirEntry)
            :: [Except.ok (⟨["r", "b.rs"], FileKind.file, [6]⟩ : DirEntry)])).warnings
      = [].filterMap (warnOf readFailEnv ["r"])
          ++ some ["r", "a.rs"]
            :: [Except.ok (⟨["r", "b.rs"], FileKind.file, [6]⟩ : DirEntry)].filterMap
                (warnOf readFailEnv ["r"])
    ∧ (compress_stream readFailEnv ["r"]
        ([] ++ Except.ok (⟨["r", "a.rs"], FileKind.file, [5]⟩ : DirEntry)
            :: [Except.ok (⟨["r", "b.rs"], FileKind.file, [6]⟩ : DirEntry)])).entries
      = [].filterMap (entryOf readFailEnv ["r"])
          ++ (if readFailEnv.pathOk ["a.rs"] then [(["a.rs"], [])] else [])
          ++ [Except.ok (⟨["r", "b.rs"], FileKind.file, [6]⟩ : DirEntry)].filterMap
                (entryOf readFailEnv ["r"]) :=
  per_entry_failure_warns_and_continues readFailEnv ["r"] []
    [Except.ok (⟨["r", "b.rs"], FileKind.file, [6]⟩ : DirEntry)]
    ⟨["r", "a.rs"], FileKind.file, [5]⟩ ["a.rs"]
    rfl (by decide) (by decide) rfl (by decide) rfl


/-- C3: an entry appears in the archive for a regular file below the root
only if the file's extension (case-sensitively) is in the allow-list and the
file's size is at most 1 MiB; equivalently, any file failing either condition
contributes no entry under its relative path. -/
theorem entry_requires_ext_and_size (env : Env) (w : FsPath)
    (children : List FsTree) (r : FsPath) (c : Bytes) (b : Bytes)
    (hwf : wfForest children = true)
    (hfind : findFile children r = some c)
    (hmem : (r, b) ∈ (buildWorkspace env w children).entries) :
    extOk (pathExtension r) = true ∧ c.length ≤ maxFilesize := by
  obtain ⟨e, hew, hent⟩ := mem_buildWorkspace_entries.mp hmem
  obtain ⟨hkind, hext, hpath, hne, _, _, _⟩ := entryOf_ok_inv hent
  have hef : e ∈ walkForest env w children := by
    rcases List.mem_cons.mp hew with h1 | h1
    · rw [h1] at hkind
      simp at hkind
    · exact h1
  have hextr : extOk (pathExtension r) = true := by
    rw [← pathExtension_append w r hne, ← hpath]
    exact hext
  have hff := findFile_of_walk env w children e hef hkind hwf r hpath
  rw [hfind] at hff
  have hc : c = e.content := Option.some.inj hff
  have hsize := (walkForest_file_spec env w children e hef hkind).1
  rw [hc]
  exact ⟨hextr, hsize⟩

/-- Witness for C3 on a concrete workspace with one included file. -/
theorem entry_requires_ext_and_size_witness :
    extOk (pathExtension ["a.rs"]) = true ∧ ([1, 2] : Bytes).length ≤ maxFilesize :=
  entry_requires_ext_and_size benignEnv ["ws"] [FsTree.file "a.rs" [1, 2]]
    ["a.rs"] [1, 2] [1, 2] (by decide) rfl (by decide)

/-- C4: no archive entry lies at or under a root-relative path whose first
component is target, whatever the tree contains (src/main.rs lines 171-173). -/
theorem no_entry_under_target (env : Env) (w : FsPath) (children : List FsTree)
    (r : FsPath) (b : Bytes)
    (hmem : (r, b) ∈ (buildWorkspace env w children).entries) :
    r.head? ≠ some "target" := by
  obtain ⟨e, _, hent⟩ := mem_buildWorkspace_entries.mp hmem
  exact (entryOf_ok_inv hent).2.2.2.2.1

/-- Witness for C4: a workspace holding target/x.rs (matching extension)
and a.rs; the only entry is a.rs and its head is not target. -/
theorem no_entry_under_target_witness :
    (["a.rs"] : FsPath).head? ≠ some "target" :=
  no_entry_under_target benignEnv ["ws"]
    [FsTree.dir "target" [FsTree.file "x.rs" [1]], FsTree.file "a.rs" [2]]
    ["a.rs"] [2] (by decide)

/-- C8: building from a manifest path always yields an archive (a container
that is well formed even with zero entries, since only finishing it could
fail and the in-memory cursor cannot); every entry's stored path is a strict
descendant of the workspace root (nonempty relative path), all its components
are real directory-listing names (in particular no parent-directory
traversal segment), and it corresponds to a regular file yielded by the
walk -- the root itself and directories are never entries. -/
theorem archive_entry_invariants (env : Env) (w : FsPath)
    (children : List FsTree) (hwf : wfForest children = true) :
    compress_workspace env (get_manifest_path w) children
      = some (buildWorkspace env w children)
    ∧ ∀ r b, (r, b) ∈ (buildWorkspace env w children).entries →
        r ≠ [] ∧ (∀ s ∈ r, goodName s = true) ∧ ".." ∉ r
        ∧ ∃ c, DirEntry.mk (w ++ r) FileKind.file c
            ∈ walkForest env w children := by
  constructor
  · unfold compress_workspace
    rw [parentPath_manifest w]
  · intro r b hmem
    obtain ⟨e, hew, hent⟩ := mem_buildWorkspace_entries.mp hmem
    obtain ⟨hkind, _, hpath, hne, _, _, _⟩ := entryOf_ok_inv hent
    have hef : e ∈ walkForest env w children := by
      rcases List.mem_cons.mp hew with h1 | h1
      · rw [h1] at hkind
        simp at hkind
      · exact h1
    have hwftrees : wfTrees children = true := by
      simp only [wfForest, Bool.and_eq_true] at hwf
      exact hwf.2
    obtain ⟨rel, _, hp2, hgood⟩ := walkForest_good env w children e hef hwftrees
    have hrel : rel = r := by
      have hb : w ++ rel = w ++ r := by
        rw [← hp2, hpath]
      exact List.append_cancel_left hb
    subst hrel
    refine ⟨hne, hgood, ?_, e.content, ?_⟩
    · intro hdd
      have := hgood ".." hdd
      simp [goodName] at this
    · have hee : e = ⟨w ++ rel, FileKind.file, e.content⟩ := by
        cases e
        simp only at hkind hpath
        simp [hkind, hpath]
      rw [← hee]
      exact hef

/-- Witness for C8 on a concrete well-formed workspace. -/
theorem archive_entry_invariants_witness :
    compress_workspace benignEnv (get_manifest_path ["ws"])
        [FsTree.dir "src" [FsTree.file "main.rs" [5]]]
      = some (buildWorkspace benignEnv ["ws"]
          [FsTree.dir "src" [FsTree.file "main.rs" [5]]])
    ∧ ∀ r b, (r, b) ∈ (buildWorkspace benignEnv ["ws"]
          [FsTree.dir "src" [FsTree.file "main.rs" [5]]]).entries →
        r ≠ [] ∧ (∀ s ∈ r, goodName s = true) ∧ ".." ∉ r
        ∧ ∃ c, DirEntry.mk (["ws"] ++ r) FileKind.file c
            ∈ walkForest benignEnv ["ws"]
                [FsTree.dir "src" [FsTree.file "main.rs" [5]]] :=
  archive_entry_invariants benignEnv ["ws"]
    [FsTree.dir "src" [FsTree.file "main.rs" [5]]] (by decide)

/-- C9: two runs of the archive builder over the same unchanged tree, even
when the walker enumerates siblings in different orders, produce archives
with the same multiset (hence set) of (relative path, content) pairs. -/
theorem build_unchanged_tree_same_entries (env : Env) (w : FsPath)
    {c1 c2 : List FsTree} (h : ForestPerm c1 c2) :
    ((buildWorkspace env w c1).entries).Perm ((buildWorkspace env w c2).entries)
    ∧ ∀ p, p ∈ (buildWorkspace env w c1).entries
        ↔ p ∈ (buildWorkspace env w c2).entries := by
  have hperm : (walkRoot env w c1).Perm (walkRoot env w c2) :=
    List.Perm.cons _ (walkForest_perm env h w)
  have hent : ((buildWorkspace env w c1).entries).Perm
      ((buildWorkspace env w c2).entries) := by
    rw [buildWorkspace_entries, buildWorkspace_entries]
    exact hperm.filterMap _
  exact ⟨hent, fun p => hent.mem_iff⟩

/-- Witness for C9 on a two-file workspace enumerated in the two orders. -/
theorem build_unchanged_tree_same_entries_witness :
    ((buildWorkspace benignEnv ["w"]
        [FsTree.file "a.rs" [1], FsTree.file "b.md" [2]]).entries).Perm
      ((buildWorkspace benignEnv ["w"]
        [FsTree.file "b.md" [2], FsTree.file "a.rs" [1]]).entries)
    ∧ ∀ p, p ∈ (buildWorkspace benignEnv ["w"]
          [FsTree.file "a.rs" [1], FsTree.file "b.md" [2]]).entries
        ↔ p ∈ (buildWorkspace benignEnv ["w"]
          [FsTree.file "b.md" [2], FsTree.file "a.rs" [1]]).entries :=
  build_unchanged_tree_same_entries benignEnv ["w"]
    (ForestPerm.swap (FsTree.file "a.rs" [1]) (FsTree.file "b.md" [2]) [])


/-- The logger configuration main installs: filter level Info, so error,
warn and info records pass and debug records do not (src/main.rs lines
70-73), absent an environment override. -/
def defaultLevels : LogLevel → Bool
  | .debug => false
  | _ => true

/-- A run under the default logger configuration whose submission is
rejected with status 403 and a readable body. -/
def rejectEnv : SubmitEnv :=
  ⟨some ⟨403, some "Forbidden", none⟩, fun _ => true, defaultLevels⟩

/-- C5 counterexample: on a 403 rejection under the default configuration
the error line is emitted and the run exits successfully, but the response
body is never read or logged: the log-crate debug macro does not evaluate
its arguments when debug level is disabled, so the logs hold no debug line
at all even though the body was readable. -/
theorem rejection_default_level_skips_body :
    (runSubmit rejectEnv 1 "tok" "https://kelvin.cs.vsb.cz" false []).logs
      = [(LogLevel.error, "The submit was not successful. Status error: 403")]
    ∧ (runSubmit rejectEnv 1 "tok" "https://kelvin.cs.vsb.cz" false []).outcome
      = Outcome.success :=
  ⟨rfl, rfl⟩

/-- C5 (amended): a non-OK response never aborts the run by itself: when
error level is enabled an error line containing the status code is emitted;
the run fails if and only if debug logging is enabled and reading the body
fails; and when debug logging is enabled and the body is readable it is
logged at debug level. -/
theorem rejection_is_nonfatal (env : SubmitEnv) (a : Nat) (token url : String)
    (no_open : Bool) (archive : Bytes) (res : HttpResponse)
    (hres : env.response = some res) (hst : res.status ≠ 200) :
    (env.levelOn LogLevel.error = true →
        (LogLevel.error, "The submit was not successful. Status error: "
            ++ toString res.status)
          ∈ (runSubmit env a token url no_open archive).logs)
    ∧ ((runSubmit env a token url no_open archive).outcome = Outcome.success
        ↔ ¬(env.levelOn LogLevel.debug = true ∧ res.text = none))
    ∧ (∀ t, env.levelOn LogLevel.debug = true → res.text = some t →
        (LogLevel.debug, "Response content: " ++ t)
          ∈ (runSubmit env a token url no_open archive).logs) := by
  simp only [runSubmit, mkSubmitRequest, hres]
  rw [if_pos hst]
  by_cases he : env.levelOn LogLevel.error
  · by_cases hd : env.levelOn LogLevel.debug
    · cases htx : res.text <;> simp [he, hd, htx]
    · simp [he, hd]
  · by_cases hd : env.levelOn LogLevel.debug
    · cases htx : res.text <;> simp [he, hd, htx]
    · simp [he, hd]

/-- Witness for the amended C5 statement at a concrete 403 rejection. -/
theorem rejection_is_nonfatal_witness :
    (rejectEnv.levelOn LogLevel.error = true →
        (LogLevel.error, "The submit was not successful. Status error: "
            ++ toString (403 : Nat))
          ∈ (runSubmit rejectEnv 1 "tok" "u" false []).logs)
    ∧ ((runSubmit rejectEnv 1 "tok" "u" false []).outcome = Outcome.success
        ↔ ¬(rejectEnv.levelOn LogLevel.debug = true
              ∧ (some "Forbidden" : Option String) = none))
    ∧ (∀ t, rejectEnv.levelOn LogLevel.debug = true →
        (some "Forbidden" : Option String) = some t →
        (LogLevel.debug, "Response content: " ++ t)
          ∈ (runSubmit rejectEnv 1 "tok" "u" false []).logs) :=
  rejection_is_nonfatal rejectEnv 1 "tok" "u" false []
    ⟨403, some "Forbidden", none⟩ rfl (by decide)

/-- C6: on a 200 response the body is deserialized into the submit id/url
and task name fields; a parse failure is fatal with the deserializing
context; on success the browser opener is invoked on the submit url exactly
when the no-open flag is unset, and the run succeeds if and only if no-open
was set or the browser open succeeded (a browser failure is fatal even
though the submission already succeeded). -/
theorem ok_response_parse_and_open (env : SubmitEnv) (a : Nat)
    (token url : String) (no_open : Bool) (archive : Bytes)
    (res : HttpResponse)
    (hres : env.response = some res) (hst : res.status = 200) :
    (res.json = none →
        (runSubmit env a token url no_open archive).outcome
          = Outcome.failure "deserializing response")
    ∧ ∀ d, res.json = some d →
        ((runSubmit env a token url no_open archive).opens
            = (if no_open then [] else [d.submit_url]))
        ∧ ((runSubmit env a token url no_open archive).outcome
              = Outcome.success
            ↔ (no_open = true ∨ env.openOk d.submit_url = true)) := by
  have hst2 : ¬(res.status ≠ 200) := by simp [hst]
  simp only [runSubmit, mkSubmitRequest, hres]
  rw [if_neg hst2]
  cases hj : res.json with
  | none => simp
  | some d =>
    refine ⟨by simp, ?_⟩
    intro d2 hd2
    have hdd : d = d2 := Option.some.inj hd2
    subst hdd
    by_cases hn : no_open
    · simp [hn]
    · by_cases ho : env.openOk d.submit_url
      · simp [hn, ho]
      · simp [hn, ho]

/-- A run whose submission is accepted: status 200 with a parseable body. -/
def acceptEnv : SubmitEnv :=
  ⟨some ⟨200, some "", some ⟨42, "https://x/s/42", "hw1"⟩⟩,
   fun _ => true, defaultLevels⟩

/-- Witness for C6 at a concrete accepted submission. -/
theorem ok_response_parse_and_open_witness :
    ((some (⟨42, "https://x/s/42", "hw1"⟩ : RespData) : Option RespData) = none →
        (runSubmit acceptEnv 1 "tok" "u" false []).outcome
          = Outcome.failure "deserializing response")
    ∧ ∀ d, (some (⟨42, "https://x/s/42", "hw1"⟩ : RespData) : Option RespData)
          = some d →
        ((runSubmit acceptEnv 1 "tok" "u" false []).opens
            = (if false then [] else [d.submit_url]))
        ∧ ((runSubmit acceptEnv 1 "tok" "u" false []).outcome
              = Outcome.success
            ↔ (false = true ∨ acceptEnv.openOk d.submit_url = true)) :=
  ok_response_parse_and_open acceptEnv 1 "tok" "u" false []
    ⟨200, some "", some ⟨42, "https://x/s/42", "hw1"⟩⟩ rfl rfl

end Kelvin
